/-
  Verification of the zoomtiler tiling engine (src/main.rs) against its
  natural-language specification.  The Rust source is shallowly embedded:
  pure functions become Lean functions, `usize` becomes `Nat` (with the
  64-bit range made explicit where the code relies on it), `u8` pixel
  channels become `Fin 256`, fallible code returns `Option`.
-/
import Mathlib

set_option maxHeartbeats 1000000
set_option maxRecDepth 8192

/-! ## Level planning (`levels_for`, `log_2`, `num_bits` in src/main.rs) -/

/-- Embeds `const fn num_bits::<usize>()` : bit width of a 64-bit `usize`. -/
def num_bits : Nat := 64

/-- Embeds `usize::leading_zeros` for values below `2 ^ 64`:
the number of leading zero bits of `x` in a 64-bit word,
expressed through `Nat.size` (the binary length of `x`). -/
def leading_zeros (x : Nat) : Nat := num_bits - Nat.size x

/-- Embeds `fn log_2(x: usize) -> usize { num_bits::<usize>() - x.leading_zeros() - 1 }`. -/
def log_2 (x : Nat) : Nat := num_bits - leading_zeros x - 1

/-- Embeds `fn levels_for(n: usize) -> usize`.  The `assert!(n > 0)` is a
panic on `n = 0`, modelled by returning `none`. -/
def levels_for (n : Nat) : Option Nat :=
  if n = 0 then none
  else if n = 1 then some 1
  else
    let l2 := log_2 n
    if n % 2 ^ l2 ≠ 0 then some (l2 + 2) else some (l2 + 1)

/-! Helper facts about `log_2` and `levels_for`. -/

lemma size_eq_of_bounds {n k : Nat} (h1 : 2 ^ k ≤ n) (h2 : n < 2 ^ (k + 1)) :
    Nat.size n = k + 1 := by
  have hle : Nat.size n ≤ k + 1 := Nat.size_le.mpr h2
  have hlt : k < Nat.size n := Nat.lt_size.mpr h1
  omega

lemma log_2_eq_of_bounds {n k : Nat} (h1 : 2 ^ k ≤ n) (h2 : n < 2 ^ (k + 1))
    (h64 : n < 2 ^ 64) : log_2 n = k := by
  have hsize : Nat.size n = k + 1 := size_eq_of_bounds h1 h2
  have hk : k < 64 := by
    by_contra hk
    push_neg at hk
    have : (2 : Nat) ^ 64 ≤ 2 ^ k := Nat.pow_le_pow_right (by norm_num) hk
    omega
  simp only [log_2, leading_zeros, num_bits, hsize]
  omega

lemma mod_pow_of_bounds {n k : Nat} (h1 : 2 ^ k ≤ n) (h2 : n < 2 ^ (k + 1)) :
    n % 2 ^ k = n - 2 ^ k := by
  have hpow : (2 : Nat) ^ (k + 1) = 2 ^ k * 2 := by rw [pow_succ]
  have hlt : n - 2 ^ k < 2 ^ k := by omega
  rw [Nat.mod_eq_sub_mod h1, Nat.mod_eq_of_lt hlt]

lemma levels_for_pow (k : Nat) (hk : k ≤ 63) : levels_for (2 ^ k) = some (k + 1) := by
  rcases Nat.eq_zero_or_pos k with hk0 | hkpos
  · subst hk0; rfl
  · have h1 : (1 : Nat) < 2 ^ k := Nat.one_lt_two_pow_iff.mpr (by omega)
    have hb1 : 2 ^ k ≤ 2 ^ k := le_refl _
    have hb2 : 2 ^ k < 2 ^ (k + 1) := Nat.pow_lt_pow_right (by norm_num) (by omega)
    have h64 : 2 ^ k < 2 ^ 64 := Nat.pow_lt_pow_right (by norm_num) (by omega)
    have hlog : log_2 (2 ^ k) = k := log_2_eq_of_bounds hb1 hb2 h64
    have hmod : 2 ^ k % 2 ^ k = 0 := Nat.mod_self _
    simp only [levels_for, hlog]
    rw [if_neg (by positivity), if_neg (by omega)]
    simp [hmod]

lemma levels_for_between {n k : Nat} (h1 : 2 ^ k < n) (h2 : n < 2 ^ (k + 1))
    (h64 : n < 2 ^ 64) : levels_for n = some (k + 2) := by
  have hklt : 0 < 2 ^ k := Nat.pos_pow_of_pos k (by norm_num)
  have hn1 : 1 < n := by
    have : (1 : Nat) ≤ 2 ^ k := hklt
    omega
  have hlog : log_2 n = k := log_2_eq_of_bounds (le_of_lt h1) h2 h64
  have hmod : n % 2 ^ k = n - 2 ^ k := mod_pow_of_bounds (le_of_lt h1) h2
  simp only [levels_for, hlog]
  rw [if_neg (by omega), if_neg (by omega), if_pos (by omega)]

/-- Claim C3: `levels_for 1 = 1`; for `n > 1` (a 64-bit value),
`levels_for (2 ^ k) = k + 1` and `levels_for n = k + 2` for
`2 ^ k < n < 2 ^ (k + 1)` (the floor-log2 formulation of the spec,
stated through its equivalent power-of-two bracketing); `levels_for`
fails (models the violated `assert!(n > 0)`) when `n = 0`. -/
theorem levels_for_spec :
    levels_for 0 = none ∧ levels_for 1 = some 1 ∧
    (∀ k : Nat, k ≤ 63 → levels_for (2 ^ k) = some (k + 1)) ∧
    (∀ n k : Nat, 2 ^ k < n → n < 2 ^ (k + 1) → n < 2 ^ 64 →
      levels_for n = some (k + 2)) := by
  refine ⟨rfl, rfl, levels_for_pow, ?_⟩
  intro n k h1 h2 h64
  exact levels_for_between h1 h2 h64

/-- Witness for C3 at concrete inputs: `levels_for 512 = 10` (512 = 2^9)
and `levels_for 513 = 11` (2^9 < 513 < 2^10). -/
theorem levels_for_spec_witness :
    (9 ≤ 63 ∧ levels_for (2 ^ 9) = some 10) ∧
    (2 ^ 9 < 513 ∧ 513 < 2 ^ 10 ∧ 513 < 2 ^ 64 ∧ levels_for 513 = some 11) :=
  ⟨⟨by decide, levels_for_spec.2.2.1 9 (by decide)⟩,
   ⟨by decide, by decide, by decide,
    levels_for_spec.2.2.2 513 9 (by decide) (by decide) (by decide)⟩⟩

/-! ## Tile grids and the level pyramid (`run`, `compute_half_resolutions`) -/

/-- The fixed tile edge length: `let tile_size = 512` in `run`. -/
def tileSize : Nat := 512

/-- Embeds the finest-grid computation in `run`:
`tile_count_width = (width_sum + tile_size - 1) / tile_size` and the
analogous `tile_count_height`. -/
def finestGrid (full_width full_height : Nat) : Nat × Nat :=
  ((full_width + tileSize - 1) / tileSize, (full_height + tileSize - 1) / tileSize)

/-- Embeds the per-level grid halving of `compute_half_resolutions`:
`half_tile_count_width = (tile_count_width + 1) / 2` and likewise for the
height; `run` applies this once per level from `levels - 1` down to `1`. -/
def halfGridStep (p : Nat × Nat) : Nat × Nat := ((p.1 + 1) / 2, (p.2 + 1) / 2)

lemma halfCeil_iterate_one : ∀ (k n : Nat), 1 ≤ n → n ≤ 2 ^ k →
    (fun m => (m + 1) / 2)^[k] n = 1 := by
  intro k
  induction k with
  | zero => intro n h1 h2; simp at h2 ⊢; omega
  | succ k ih =>
    intro n h1 h2
    rw [Function.iterate_succ_apply]
    apply ih
    · show 1 ≤ (n + 1) / 2; omega
    · show (n + 1) / 2 ≤ 2 ^ k
      have : (2 : Nat) ^ (k + 1) = 2 ^ k * 2 := by rw [pow_succ]
      omega

lemma halfGridStep_iterate (k : Nat) : ∀ (a b : Nat),
    halfGridStep^[k] (a, b) = ((fun m => (m + 1) / 2)^[k] a, (fun m => (m + 1) / 2)^[k] b) := by
  induction k with
  | zero => intro a b; simp
  | succ k ih =>
    intro a b
    rw [Function.iterate_succ_apply, Function.iterate_succ_apply,
      Function.iterate_succ_apply]
    exact ih _ _

lemma levels_for_bound {n : Nat} (h1 : 1 ≤ n) (h64 : n < 2 ^ 64) :
    ∃ L, levels_for n = some L ∧ 1 ≤ L ∧ n ≤ 2 ^ (L - 1) := by
  rcases Nat.lt_or_ge n 2 with h2 | h2
  · have : n = 1 := by omega
    subst this
    exact ⟨1, rfl, by omega, by norm_num⟩
  · -- bracket n between consecutive powers of two
    have hsize : 1 ≤ Nat.size n := Nat.size_pos.mpr (by omega)
    set k := Nat.size n - 1 with hk
    have hub : n < 2 ^ (k + 1) := by
      have := Nat.lt_size_self n
      have hkk : k + 1 = Nat.size n := by omega
      rw [hkk]; exact this
    have hlb : 2 ^ k ≤ n := by
      have : k < Nat.size n := by omega
      exact Nat.lt_size.mp this
    rcases Nat.eq_or_lt_of_le hlb with heq | hlt
    · refine ⟨k + 1, ?_, by omega, ?_⟩
      · rw [← heq]
        apply levels_for_pow
        by_contra hkbig
        push_neg at hkbig
        have : (2 : Nat) ^ 64 ≤ 2 ^ k := Nat.pow_le_pow_right (by norm_num) (by omega)
        omega
      · simp only [Nat.add_sub_cancel]; omega
    · refine ⟨k + 2, levels_for_between hlt hub h64, by omega, ?_⟩
      have h21 : k + 2 - 1 = k + 1 := rfl
      rw [h21]
      omega

lemma finest_le {w : Nat} (h : 1 ≤ w) :
    1 ≤ (w + tileSize - 1) / tileSize ∧ (w + tileSize - 1) / tileSize ≤ w := by
  simp only [tileSize]
  omega

/-- Claim C5: the coarser tile grids arise by applying `ceil(x/2)` per axis
(`halfGridStep`, from `compute_half_resolutions`) to the finest grid
`(ceil(full_width/512), ceil(full_height/512))`; with
`levels = levels_for (max full_width full_height)`, iterating the halving
`levels - 1` times reaches the single tile `(1, 1)` for every positive
64-bit canvas size. -/
theorem grid_reaches_single_tile (full_width full_height : Nat)
    (hw : 1 ≤ full_width) (hh : 1 ≤ full_height)
    (hw64 : full_width < 2 ^ 64) (hh64 : full_height < 2 ^ 64) :
    ∃ L, levels_for (max full_width full_height) = some L ∧ 1 ≤ L ∧
      halfGridStep^[L - 1] (finestGrid full_width full_height) = (1, 1) := by
  have hmax1 : 1 ≤ max full_width full_height := le_trans hw (le_max_left _ _)
  have hmax64 : max full_width full_height < 2 ^ 64 := by
    rcases max_choice full_width full_height with h | h <;> omega
  obtain ⟨L, hL, hL1, hbound⟩ := levels_for_bound hmax1 hmax64
  refine ⟨L, hL, hL1, ?_⟩
  obtain ⟨hcw1, hcww⟩ := finest_le hw
  obtain ⟨hch1, hchh⟩ := finest_le hh
  have hwle : full_width ≤ 2 ^ (L - 1) := le_trans (le_max_left _ _) hbound
  have hhle : full_height ≤ 2 ^ (L - 1) := le_trans (le_max_right _ _) hbound
  rw [finestGrid, halfGridStep_iterate]
  rw [halfCeil_iterate_one (L - 1) _ hcw1 (le_trans hcww hwle),
    halfCeil_iterate_one (L - 1) _ hch1 (le_trans hchh hhle)]

/-- Witness for C5 at the spec's example canvas 600 by 200. -/
theorem grid_reaches_single_tile_witness :
    (1 ≤ 600 ∧ 1 ≤ 200 ∧ 600 < 2 ^ 64 ∧ 200 < 2 ^ 64) ∧
    (∃ L, levels_for (max 600 200) = some L ∧ 1 ≤ L ∧
      halfGridStep^[L - 1] (finestGrid 600 200) = (1, 1)) :=
  ⟨⟨by decide, by decide, by decide, by decide⟩,
   grid_reaches_single_tile 600 200 (by decide) (by decide) (by decide) (by decide)⟩

/-! ## Image data model

`RgbImage` is embedded as a width, a height and a total pixel function;
`u8` channels become `Fin 256`. -/

/-- Embeds `image::Rgb<u8>`: one 8-bit pixel with three channels. -/
structure Rgb where
  r : Fin 256
  g : Fin 256
  b : Fin 256
deriving DecidableEq

/-- Embeds `image::RgbImage`: dimensions plus a pixel buffer, the buffer
modelled as a total function (reads are only ever performed in bounds). -/
structure Img where
  width : Nat
  height : Nat
  pix : Nat → Nat → Rgb

/-- Embeds `RgbImage::new(w, h)`: a zero-initialized (black) image. -/
def newImg (w h : Nat) : Img := ⟨w, h, fun _ _ => ⟨0, 0, 0⟩⟩

/-! ## PyramidReducer (`half_res` in src/main.rs) -/

/-- Output width of `half_res`: `(top_left.width() + top_right.width() + 1) / 2`. -/
def halfWidth (top_left top_right : Img) : Nat :=
  (top_left.width + top_right.width + 1) / 2

/-- Output height of `half_res`: `(top_left.height() + bottom_left.height() + 1) / 2`. -/
def halfHeight (top_left bottom_left : Img) : Nat :=
  (top_left.height + bottom_left.height + 1) / 2

/-- Embeds the closures `img_source_and_offset` and `extract_pixel` of
`half_res`: dispatch a combined-block coordinate to one of the four
quadrant images and read the pixel there, `none` if the local coordinate
falls outside that image. -/
def extract_pixel (top_left top_right bottom_left bottom_right : Img)
    (tX tY : Nat) : Option Rgb :=
  let (img, ox, oy) :=
    if tX < top_left.width ∧ tY < top_left.height then (top_left, 0, 0)
    else if tX < top_left.width then (bottom_left, 0, top_left.height)
    else if tY < top_left.height then (top_right, top_left.width, 0)
    else (bottom_right, top_left.width, top_left.height)
  let local_x := tX - ox
  let local_y := tY - oy
  if img.width ≤ local_x ∨ img.height ≤ local_y then none
  else some (img.pix local_x local_y)

/-- The four candidate source pixels of output pixel `(x, y)` in `half_res`:
`extract_pixel` at `(2x, 2y), (2x+1, 2y), (2x, 2y+1), (2x+1, 2y+1)`. -/
def subPixels (top_left top_right bottom_left bottom_right : Img)
    (x y : Nat) : List (Option Rgb) :=
  [extract_pixel top_left top_right bottom_left bottom_right (2 * x) (2 * y),
   extract_pixel top_left top_right bottom_left bottom_right (2 * x + 1) (2 * y),
   extract_pixel top_left top_right bottom_left bottom_right (2 * x) (2 * y + 1),
   extract_pixel top_left top_right bottom_left bottom_right (2 * x + 1) (2 * y + 1)]

/-- One step of the fold in `half_res` accumulating `(pix_count, pix_sum)`;
the `u16` sums cannot overflow (at most four summands below 256). -/
def pixStep (acc : Nat × Nat × Nat × Nat) (maybe_pix : Option Rgb) :
    Nat × Nat × Nat × Nat :=
  match maybe_pix with
  | some p => (acc.1 + 1, acc.2.1 + p.r.val, acc.2.2.1 + p.g.val, acc.2.2.2 + p.b.val)
  | none => acc

/-- The fold of `half_res` over the four candidate pixels, starting from
`(0, [0, 0, 0])`, producing `(pix_count, r_sum, g_sum, b_sum)`. -/
def pixAccum (l : List (Option Rgb)) : Nat × Nat × Nat × Nat :=
  l.foldl pixStep (0, 0, 0, 0)

/-- Embeds `fn half_res`: the `(tile_count+1)/2`-sized output whose pixel
`(x, y)` is, per channel, `pix_sum / pix_count` cast to `u8` (the cast is
the `% 256`). -/
def half_res (top_left top_right bottom_left bottom_right : Img) : Img :=
  ⟨halfWidth top_left top_right, halfHeight top_left bottom_left, fun x y =>
    let a := pixAccum (subPixels top_left top_right bottom_left bottom_right x y)
    ⟨⟨a.2.1 / a.1 % 256, Nat.mod_lt _ (by decide)⟩,
     ⟨a.2.2.1 / a.1 % 256, Nat.mod_lt _ (by decide)⟩,
     ⟨a.2.2.2 / a.1 % 256, Nat.mod_lt _ (by decide)⟩⟩⟩

/-! Specification-side notions for the reducer claims: the combined 2-by-2
block of the four input tiles. -/

/-- A coordinate lies in the rectangle of one quadrant image placed at
offset `(ox, oy)`. -/
def inQuad (ox oy : Nat) (img : Img) (c : Nat × Nat) : Bool :=
  decide (ox ≤ c.1) && decide (c.1 < ox + img.width) &&
  decide (oy ≤ c.2) && decide (c.2 < oy + img.height)

/-- A coordinate lies in the combined extent of the four tiles laid
edge-to-edge (top-left at the origin). -/
def inCombined (top_left top_right bottom_left bottom_right : Img)
    (c : Nat × Nat) : Bool :=
  inQuad 0 0 top_left c ||
  inQuad top_left.width 0 top_right c ||
  inQuad 0 top_left.height bottom_left c ||
  inQuad top_left.width top_left.height bottom_right c

/-- Reading the combined 2-by-2 block at a coordinate, dispatching to the
quadrant that covers it by coordinate range. -/
def combinedPix (top_left top_right bottom_left bottom_right : Img)
    (tX tY : Nat) : Rgb :=
  if tX < top_left.width then
    (if tY < top_left.height then top_left.pix tX tY
     else bottom_left.pix tX (tY - top_left.height))
  else
    (if tY < top_left.height then top_right.pix (tX - top_left.width) tY
     else bottom_right.pix (tX - top_left.width) (tY - top_left.height))

/-- The subset of the four source coordinates of output pixel `(x, y)`
that fall inside the combined extent of the four tiles. -/
def presentCoords (top_left top_right bottom_left bottom_right : Img)
    (x y : Nat) : List (Nat × Nat) :=
  [(2 * x, 2 * y), (2 * x + 1, 2 * y), (2 * x, 2 * y + 1), (2 * x + 1, 2 * y + 1)].filter
    (inCombined top_left top_right bottom_left bottom_right)

/-- The pixel values of the present source coordinates. -/
def presentVals (top_left top_right bottom_left bottom_right : Img)
    (x y : Nat) : List Rgb :=
  (presentCoords top_left top_right bottom_left bottom_right x y).map
    (fun c => combinedPix top_left top_right bottom_left bottom_right c.1 c.2)

/-! Helper lemmas for the reducer claims. -/

lemma inCombined_iff {top_left top_right bottom_left bottom_right : Img}
    (h1 : top_left.width = bottom_left.width)
    (h2 : top_left.height = top_right.height)
    (h3 : bottom_right.width = top_right.width)
    (h4 : bottom_right.height = bottom_left.height) (tX tY : Nat) :
    inCombined top_left top_right bottom_left bottom_right (tX, tY) = true ↔
      tX < top_left.width + top_right.width ∧
      tY < top_left.height + bottom_left.height := by
  simp only [inCombined, inQuad, Bool.or_eq_true, Bool.and_eq_true, decide_eq_true_eq]
  omega

lemma extract_pixel_eq {top_left top_right bottom_left bottom_right : Img}
    (h1 : top_left.width = bottom_left.width)
    (h2 : top_left.height = top_right.height)
    (h3 : bottom_right.width = top_right.width)
    (h4 : bottom_right.height = bottom_left.height) (tX tY : Nat) :
    extract_pixel top_left top_right bottom_left bottom_right tX tY =
      if inCombined top_left top_right bottom_left bottom_right (tX, tY) then
        some (combinedPix top_left top_right bottom_left bottom_right tX tY)
      else none := by
  have hiff := inCombined_iff h1 h2 h3 h4 tX tY
  by_cases hX : tX < top_left.width <;> by_cases hY : tY < top_left.height <;>
    simp only [extract_pixel, combinedPix, hX, hY, and_true, true_and, and_false,
      false_and, if_true, if_false, Nat.sub_zero, hiff] <;>
    split_ifs <;> first | rfl | omega

lemma foldl_pixStep (l : List (Option Rgb)) : ∀ (acc : Nat × Nat × Nat × Nat),
    l.foldl pixStep acc =
      (acc.1 + (l.filterMap id).length,
       acc.2.1 + ((l.filterMap id).map (fun p => p.r.val)).sum,
       acc.2.2.1 + ((l.filterMap id).map (fun p => p.g.val)).sum,
       acc.2.2.2 + ((l.filterMap id).map (fun p => p.b.val)).sum) := by
  induction l with
  | nil => intro acc; simp
  | cons hd tl ih =>
    intro acc
    cases hd with
    | none => rw [List.foldl_cons, ih]; simp [pixStep]
    | some p =>
      rw [List.foldl_cons, ih]
      simp only [pixStep, id_eq, List.filterMap_cons, List.length_cons, List.map_cons,
        List.sum_cons, Prod.mk.injEq]
      omega

lemma pixAccum_eq (l : List (Option Rgb)) :
    pixAccum l =
      ((l.filterMap id).length,
       ((l.filterMap id).map (fun p => p.r.val)).sum,
       ((l.filterMap id).map (fun p => p.g.val)).sum,
       ((l.filterMap id).map (fun p => p.b.val)).sum) := by
  rw [pixAccum, foldl_pixStep]
  simp

lemma map_if_filterMap (coords : List (Nat × Nat)) (p : Nat × Nat → Bool)
    (f : Nat × Nat → Rgb) :
    (coords.map (fun c => if p c then some (f c) else none)).filterMap id =
      (coords.filter p).map f := by
  induction coords with
  | nil => simp
  | cons hd tl ih =>
    by_cases hp : p hd <;> simp [hp, ih]

lemma subPixels_filterMap {top_left top_right bottom_left bottom_right : Img}
    (h1 : top_left.width = bottom_left.width)
    (h2 : top_left.height = top_right.height)
    (h3 : bottom_right.width = top_right.width)
    (h4 : bottom_right.height = bottom_left.height) (x y : Nat) :
    (subPixels top_left top_right bottom_left bottom_right x y).filterMap id =
      presentVals top_left top_right bottom_left bottom_right x y := by
  have hmap : subPixels top_left top_right bottom_left bottom_right x y =
      [(2 * x, 2 * y), (2 * x + 1, 2 * y), (2 * x, 2 * y + 1), (2 * x + 1, 2 * y + 1)].map
        (fun c =>
          if inCombined top_left top_right bottom_left bottom_right c then
            some (combinedPix top_left top_right bottom_left bottom_right c.1 c.2)
          else none) := by
    simp only [subPixels, List.map_cons, List.map_nil]
    rw [extract_pixel_eq h1 h2 h3 h4, extract_pixel_eq h1 h2 h3 h4,
      extract_pixel_eq h1 h2 h3 h4, extract_pixel_eq h1 h2 h3 h4]
  rw [hmap, map_if_filterMap, presentVals, presentCoords]

lemma sum_channel_le (l : List Rgb) (f : Rgb → Fin 256) :
    ((l.map (fun p => (f p).val)).sum) ≤ 255 * l.length := by
  induction l with
  | nil => simp
  | cons hd tl ih =>
    simp only [List.map_cons, List.sum_cons, List.length_cons]
    have : (f hd).val ≤ 255 := Nat.lt_succ_iff.mp (f hd).isLt
    omega

lemma channel_div_mod (l : List Rgb) (hpos : 0 < l.length) (f : Rgb → Fin 256) :
    ((l.map (fun p => (f p).val)).sum) / l.length % 256 =
      ((l.map (fun p => (f p).val)).sum) / l.length := by
  apply Nat.mod_eq_of_lt
  have hb := sum_channel_le l f
  have hdiv : ((l.map (fun p => (f p).val)).sum) / l.length ≤ 255 := by
    calc ((l.map (fun p => (f p).val)).sum) / l.length
        ≤ 255 * l.length / l.length := Nat.div_le_div_right hb
      _ = 255 := Nat.mul_div_cancel 255 hpos
  omega

lemma present_first_mem {top_left top_right bottom_left bottom_right : Img}
    (h1 : top_left.width = bottom_left.width)
    (h2 : top_left.height = top_right.height)
    (h3 : bottom_right.width = top_right.width)
    (h4 : bottom_right.height = bottom_left.height) {x y : Nat}
    (hx : x < halfWidth top_left top_right)
    (hy : y < halfHeight top_left bottom_left) :
    (2 * x, 2 * y) ∈ presentCoords top_left top_right bottom_left bottom_right x y := by
  have hx2 : 2 * x < top_left.width + top_right.width := by
    rw [halfWidth] at hx; omega
  have hy2 : 2 * y < top_left.height + bottom_left.height := by
    rw [halfHeight] at hy; omega
  rw [presentCoords, List.mem_filter]
  exact ⟨by simp, (inCombined_iff h1 h2 h3 h4 _ _).mpr ⟨hx2, hy2⟩⟩

/-- Claim C2: under the four size assertions of `half_res`, every output
pixel is, per channel, the floor of the mean of exactly the source pixels
among `(2x, 2y), (2x+1, 2y), (2x, 2y+1), (2x+1, 2y+1)` that lie in the
combined extent of the four tiles; the division is by the count of present
pixels, which is between 1 and 4, and absent pixels contribute nothing. -/
theorem half_res_pixel_mean (top_left top_right bottom_left bottom_right : Img)
    (h1 : top_left.width = bottom_left.width)
    (h2 : top_left.height = top_right.height)
    (h3 : bottom_right.width = top_right.width)
    (h4 : bottom_right.height = bottom_left.height) (x y : Nat)
    (hx : x < (half_res top_left top_right bottom_left bottom_right).width)
    (hy : y < (half_res top_left top_right bottom_left bottom_right).height) :
    (((half_res top_left top_right bottom_left bottom_right).pix x y).r.val =
       ((presentVals top_left top_right bottom_left bottom_right x y).map
         (fun p => p.r.val)).sum /
       (presentVals top_left top_right bottom_left bottom_right x y).length ∧
     ((half_res top_left top_right bottom_left bottom_right).pix x y).g.val =
       ((presentVals top_left top_right bottom_left bottom_right x y).map
         (fun p => p.g.val)).sum /
       (presentVals top_left top_right bottom_left bottom_right x y).length ∧
     ((half_res top_left top_right bottom_left bottom_right).pix x y).b.val =
       ((presentVals top_left top_right bottom_left bottom_right x y).map
         (fun p => p.b.val)).sum /
       (presentVals top_left top_right bottom_left bottom_right x y).length) ∧
    1 ≤ (presentVals top_left top_right bottom_left bottom_right x y).length ∧
    (presentVals top_left top_right bottom_left bottom_right x y).length ≤ 4 := by
  have hx' : x < halfWidth top_left top_right := hx
  have hy' : y < halfHeight top_left bottom_left := hy
  have hmem := present_first_mem h1 h2 h3 h4 hx' hy'
  have hlen1 : 1 ≤ (presentVals top_left top_right bottom_left bottom_right x y).length := by
    rw [presentVals, List.length_map]
    exact List.length_pos.mpr (List.ne_nil_of_mem hmem)
  have hlen4 : (presentVals top_left top_right bottom_left bottom_right x y).length ≤ 4 := by
    rw [presentVals, List.length_map, presentCoords]
    calc (([(2 * x, 2 * y), (2 * x + 1, 2 * y), (2 * x, 2 * y + 1),
            (2 * x + 1, 2 * y + 1)]).filter
            (inCombined top_left top_right bottom_left bottom_right)).length
        ≤ ([(2 * x, 2 * y), (2 * x + 1, 2 * y), (2 * x, 2 * y + 1),
            (2 * x + 1, 2 * y + 1)] : List (Nat × Nat)).length :=
          List.length_filter_le _ _
      _ = 4 := rfl
  refine ⟨?_, hlen1, hlen4⟩
  have hacc := pixAccum_eq (subPixels top_left top_right bottom_left bottom_right x y)
  rw [subPixels_filterMap h1 h2 h3 h4] at hacc
  simp only [half_res, hacc]
  refine ⟨?_, ?_, ?_⟩
  · exact channel_div_mod _ (by omega) (fun p => p.r)
  · exact channel_div_mod _ (by omega) (fun p => p.g)
  · exact channel_div_mod _ (by omega) (fun p => p.b)

/-- A constant-colored test image for concrete witnesses. -/
def constImg (w h : Nat) (p : Rgb) : Img := ⟨w, h, fun _ _ => p⟩

/-- The four 1-by-1 quadrant images of the reducer witnesses. -/
def tlW : Img := constImg 1 1 ⟨10, 20, 30⟩

/-- Top-right quadrant of the reducer witnesses. -/
def trW : Img := constImg 1 1 ⟨50, 60, 70⟩

/-- Bottom-left quadrant of the reducer witnesses. -/
def blW : Img := constImg 1 1 ⟨90, 100, 110⟩

/-- Bottom-right quadrant of the reducer witnesses. -/
def brW : Img := constImg 1 1 ⟨130, 140, 150⟩

/-- Witness for C2 on four concrete 1-by-1 tiles. -/
theorem half_res_pixel_mean_witness :
    (tlW.width = blW.width ∧ tlW.height = trW.height ∧ brW.width = trW.width ∧
     brW.height = blW.height ∧ 0 < (half_res tlW trW blW brW).width ∧
     0 < (half_res tlW trW blW brW).height) ∧
    ((((half_res tlW trW blW brW).pix 0 0).r.val =
        ((presentVals tlW trW blW brW 0 0).map (fun p => p.r.val)).sum /
          (presentVals tlW trW blW brW 0 0).length ∧
      ((half_res tlW trW blW brW).pix 0 0).g.val =
        ((presentVals tlW trW blW brW 0 0).map (fun p => p.g.val)).sum /
          (presentVals tlW trW blW brW 0 0).length ∧
      ((half_res tlW trW blW brW).pix 0 0).b.val =
        ((presentVals tlW trW blW brW 0 0).map (fun p => p.b.val)).sum /
          (presentVals tlW trW blW brW 0 0).length) ∧
     1 ≤ (presentVals tlW trW blW brW 0 0).length ∧
     (presentVals tlW trW blW brW 0 0).length ≤ 4) :=
  ⟨⟨rfl, rfl, rfl, rfl, by decide, by decide⟩,
   half_res_pixel_mean tlW trW blW brW rfl rfl rfl rfl 0 0 (by decide) (by decide)⟩

/-- Claim C10: under the four size assertions of `half_res`, with a
top-left tile of positive width and height, every output pixel position
samples at least one present source pixel — in particular `(2x, 2y)` is
present — so `pix_count` is at least 1 and the division in `half_res`
never divides by zero. -/
theorem half_res_div_safe (top_left top_right bottom_left bottom_right : Img)
    (h1 : top_left.width = bottom_left.width)
    (h2 : top_left.height = top_right.height)
    (h3 : bottom_right.width = top_right.width)
    (h4 : bottom_right.height = bottom_left.height)
    (hw : 0 < top_left.width) (hh : 0 < top_left.height) (x y : Nat)
    (hx : x < (half_res top_left top_right bottom_left bottom_right).width)
    (hy : y < (half_res top_left top_right bottom_left bottom_right).height) :
    (extract_pixel top_left top_right bottom_left bottom_right (2 * x) (2 * y)).isSome = true ∧
    1 ≤ (pixAccum (subPixels top_left top_right bottom_left bottom_right x y)).1 := by
  have hx' : x < halfWidth top_left top_right := hx
  have hy' : y < halfHeight top_left bottom_left := hy
  have h2x : 2 * x < top_left.width + top_right.width := by
    rw [halfWidth] at hx'; omega
  have h2y : 2 * y < top_left.height + bottom_left.height := by
    rw [halfHeight] at hy'; omega
  constructor
  · rw [extract_pixel_eq h1 h2 h3 h4,
      if_pos ((inCombined_iff h1 h2 h3 h4 _ _).mpr ⟨h2x, h2y⟩)]
    rfl
  · rw [pixAccum_eq]
    show 1 ≤ ((subPixels top_left top_right bottom_left bottom_right x y).filterMap id).length
    rw [subPixels_filterMap h1 h2 h3 h4, presentVals, List.length_map]
    exact List.length_pos.mpr (List.ne_nil_of_mem (present_first_mem h1 h2 h3 h4 hx' hy'))

/-- Witness for C10 on four concrete 1-by-1 tiles. -/
theorem half_res_div_safe_witness :
    (tlW.width = blW.width ∧ tlW.height = trW.height ∧ brW.width = trW.width ∧
     brW.height = blW.height ∧ 0 < tlW.width ∧ 0 < tlW.height ∧
     0 < (half_res tlW trW blW brW).width ∧ 0 < (half_res tlW trW blW brW).height) ∧
    ((extract_pixel tlW trW blW brW (2 * 0) (2 * 0)).isSome = true ∧
     1 ≤ (pixAccum (subPixels tlW trW blW brW 0 0)).1) :=
  ⟨⟨rfl, rfl, rfl, rfl, by decide, by decide, by decide, by decide⟩,
   half_res_div_safe tlW trW blW brW rfl rfl rfl rfl (by decide) (by decide) 0 0
     (by decide) (by decide)⟩

/-! ## CanvasExtractor (`ImgExtractor` in src/main.rs)

The pixel-producing part of `ImgExtractor::extract`.  The cache effect of
the same loop is modelled separately below (`extractCacheLoop`). -/

/-- Embeds the `crop` closure of `extract`:
`crop_imm(&img, 0, 0, img.width(), img_height).to_image()` — keep the top
`img_height` rows (clamped to the image height), pixels unchanged. -/
def crop_imm (img : Img) (img_height : Nat) : Img :=
  ⟨img.width, min img_height img.height, img.pix⟩

/-- Embeds `GenericImageView::view(x0, y0, w, h)`: a `w`-by-`h` window whose
pixel `(x, y)` is the underlying pixel `(x0 + x, y0 + y)`. -/
def imgView (img : Img) (x0 y0 w h : Nat) : Img :=
  ⟨w, h, fun x y => img.pix (x0 + x) (y0 + y)⟩

/-- Embeds `GenericImage::copy_from(&src, ox, 0)`: overwrite the rectangle
of `dst` at horizontal offset `ox` (vertical offset 0) with `src`. -/
def copyFrom (dst src : Img) (ox : Nat) : Img :=
  ⟨dst.width, dst.height, fun x y =>
    if ox ≤ x ∧ x < ox + src.width ∧ y < src.height then src.pix (x - ox) y
    else dst.pix x y⟩

/-- Embeds the source-scanning loop of `ImgExtractor::extract`: walk the
`(probed size, decoded image)` pairs keeping the running canvas offset
`accum_left`; a source with `left <= accum_left + w` is cropped, windowed to
the intersecting sub-rectangle and copied into the output tile; the loop
stops once `accum_left + w >= right`.  (Nat subtraction renders the
`.max(0)` clamps of the `i64` casts.) -/
def extractLoop (img_height left right top bottom : Nat) :
    List ((Nat × Nat) × Img) → Nat → Img → Img
  | [], _, img_tile => img_tile
  | ((w, _), img) :: rest, accum_left, img_tile =>
    let img_tile' :=
      if left ≤ accum_left + w then
        let cropped := crop_imm img img_height
        let inner_left := left - accum_left
        let inner_right := min (right - accum_left) w
        let inner_width := inner_right - inner_left
        let img_view := imgView cropped inner_left top inner_width (bottom - top)
        let tile_inner_left := accum_left - left
        copyFrom img_tile img_view tile_inner_left
      else img_tile
    if right ≤ accum_left + w then img_tile'
    else extractLoop img_height left right top bottom rest (accum_left + w) img_tile'

/-- Embeds `struct ImgExtractor` (paths replaced by the decoded images the
paths would decode to). -/
structure ImgExtractor where
  sizes : List (Nat × Nat)
  decoded : List Img
  full_width : Nat
  full_height : Nat

/-- Embeds `ImgExtractor::new`: `full_width` is the sum of the probed
widths, `full_height` the height of the first probed size. -/
def ImgExtractor.new (img_sizes : List (Nat × Nat)) (imgs : List Img) : ImgExtractor :=
  ⟨img_sizes, imgs, (img_sizes.map (fun s => s.1)).sum, img_sizes.headI.2⟩

/-- Embeds `ImgExtractor::extract(img_height, tile_size, tx, ty)` without
its cache bookkeeping: the returned tile image. -/
def ImgExtractor.extract (e : ImgExtractor) (img_height tile_size tx ty : Nat) : Img :=
  let left := tx * tile_size
  let top := ty * tile_size
  let right := min (left + tile_size) e.full_width
  let bottom := min (top + tile_size) e.full_height
  let tile_width := min tile_size (right - left)
  let tile_height := min tile_size (bottom - top)
  extractLoop img_height left right top bottom (e.sizes.zip e.decoded) 0
    (newImg tile_width tile_height)

/-- Reference implementation from the spec: the naive canvas obtained by
concatenating the height-cropped sources left-to-right (each placed at the
running sum of the probed widths) and reading pixel `(X, Y)` directly from
the owning source. -/
def referenceCanvas (img_height : Nat) : List ((Nat × Nat) × Img) → Nat → Nat → Rgb
  | [], _, _ => ⟨0, 0, 0⟩
  | ((w, _), img) :: rest, X, Y =>
    if X < w then (crop_imm img img_height).pix X Y
    else referenceCanvas img_height rest (X - w) Y

/-! Helper lemmas for the extractor claims. -/

lemma extractLoop_width (img_height left right top bottom : Nat) :
    ∀ (l : List ((Nat × Nat) × Img)) (accum_left : Nat) (img_tile : Img),
      (extractLoop img_height left right top bottom l accum_left img_tile).width =
        img_tile.width := by
  intro l
  induction l with
  | nil => intro accum_left img_tile; rfl
  | cons hd rest ih =>
    intro accum_left img_tile
    obtain ⟨⟨w, h0⟩, img⟩ := hd
    simp only [extractLoop]
    split_ifs <;> first | rfl | (rw [ih]; try rfl)

lemma extractLoop_height (img_height left right top bottom : Nat) :
    ∀ (l : List ((Nat × Nat) × Img)) (accum_left : Nat) (img_tile : Img),
      (extractLoop img_height left right top bottom l accum_left img_tile).height =
        img_tile.height := by
  intro l
  induction l with
  | nil => intro accum_left img_tile; rfl
  | cons hd rest ih =>
    intro accum_left img_tile
    obtain ⟨⟨w, h0⟩, img⟩ := hd
    simp only [extractLoop]
    split_ifs <;> first | rfl | (rw [ih]; try rfl)

lemma ImgExtractor.extract_dims (e : ImgExtractor) (img_height tile_size tx ty : Nat) :
    (e.extract img_height tile_size tx ty).width =
      min tile_size (min (tx * tile_size + tile_size) e.full_width - tx * tile_size) ∧
    (e.extract img_height tile_size tx ty).height =
      min tile_size (min (ty * tile_size + tile_size) e.full_height - ty * tile_size) := by
  unfold ImgExtractor.extract
  rw [extractLoop_width, extractLoop_height]
  exact ⟨rfl, rfl⟩

lemma extractLoop_pix_before (img_height left right top bottom : Nat) :
    ∀ (l : List ((Nat × Nat) × Img)) (accum_left : Nat) (img_tile : Img) (x y : Nat),
      left + x < accum_left →
      (extractLoop img_height left right top bottom l accum_left img_tile).pix x y =
        img_tile.pix x y := by
  intro l
  induction l with
  | nil => intro accum_left img_tile x y hlt; rfl
  | cons hd rest ih =>
    intro accum_left img_tile x y hlt
    obtain ⟨⟨w, h0⟩, img⟩ := hd
    simp only [extractLoop]
    split_ifs with hbreak hload hload
    · simp only [copyFrom]
      rw [if_neg (fun hcond => absurd hcond.1 (by omega))]
    · rfl
    · rw [ih _ _ _ _ (by omega)]
      simp only [copyFrom]
      rw [if_neg (fun hcond => absurd hcond.1 (by omega))]
    · rw [ih _ _ _ _ (by omega)]

lemma extractLoop_pix_eq (img_height left right top bottom : Nat) :
    ∀ (l : List ((Nat × Nat) × Img)) (accum_left : Nat) (img_tile : Img) (x y : Nat),
      accum_left ≤ left + x → left + x < right → y < bottom - top →
      left + x < accum_left + (l.map (fun p => p.1.1)).sum →
      (extractLoop img_height left right top bottom l accum_left img_tile).pix x y =
        referenceCanvas img_height l (left + x - accum_left) (top + y) := by
  intro l
  induction l with
  | nil =>
    intro accum_left img_tile x y h1 h2 h3 h4
    simp only [List.map_nil, List.sum_nil] at h4
    omega
  | cons hd rest ih =>
    intro accum_left img_tile x y h1 h2 h3 h4
    obtain ⟨⟨w, h0⟩, img⟩ := hd
    simp only [List.map_cons, List.sum_cons] at h4
    by_cases howner : left + x < accum_left + w
    · -- the head source owns canvas column `left + x`
      have hload : left ≤ accum_left + w := by omega
      have href : referenceCanvas img_height (((w, h0), img) :: rest)
          (left + x - accum_left) (top + y) = img.pix (left + x - accum_left) (top + y) := by
        simp only [referenceCanvas]
        rw [if_pos (by omega)]
        rfl
      have hcopy : ∀ dst : Img,
          (copyFrom dst
            (imgView (crop_imm img img_height) (left - accum_left) top
              (min (right - accum_left) w - (left - accum_left)) (bottom - top))
            (accum_left - left)).pix x y = img.pix (left + x - accum_left) (top + y) := by
        intro dst
        simp only [copyFrom, imgView, crop_imm]
        rw [if_pos ⟨by omega, by omega, h3⟩]
        have harg : left - accum_left + (x - (accum_left - left)) =
            left + x - accum_left := by omega
        rw [harg]
      simp only [extractLoop]
      split_ifs with hbreak
      · rw [hcopy, href]
      · rw [extractLoop_pix_before _ _ _ _ _ _ _ _ _ _ (by omega), hcopy, href]
    · -- the owner lies further right; the head copy (if any) stays left of x
      have hnb : ¬ right ≤ accum_left + w := by omega
      simp only [extractLoop]
      rw [if_neg hnb, ih _ _ _ _ (by omega) h2 h3 (by omega)]
      simp only [referenceCanvas]
      rw [if_neg (by omega)]
      have harg : left + x - accum_left - w = left + x - (accum_left + w) := by omega
      rw [harg]

lemma zip_map_width_sum (img_sizes : List (Nat × Nat)) (imgs : List Img)
    (hlen : img_sizes.length = imgs.length) :
    ((img_sizes.zip imgs).map (fun p => p.1.1)).sum =
      (img_sizes.map (fun s => s.1)).sum := by
  have h1 : (img_sizes.zip imgs).map (fun p => p.1.1) =
      ((img_sizes.zip imgs).map Prod.fst).map (fun s => s.1) := by
    rw [List.map_map]; rfl
  rw [h1, List.map_fst_zip _ _ (le_of_eq hlen)]

/-- Claim C1: for a list of sources of common cropped height `H` and any
finest-level tile `(tx, ty)` inside the grid, every pixel `(x, y)` of the
tile produced by `ImgExtractor::extract` equals the pixel at canvas
coordinate `(tx*512 + x, ty*512 + y)` of the naive reference canvas that
concatenates the cropped sources left-to-right. -/
theorem extract_matches_reference (img_sizes : List (Nat × Nat)) (imgs : List Img)
    (H : Nat) (hne : img_sizes ≠ []) (hlen : img_sizes.length = imgs.length)
    (hH : ∀ s ∈ img_sizes, s.2 = H) (tx ty x y : Nat)
    (htx : tx < ((img_sizes.map (fun s => s.1)).sum + 511) / 512)
    (hty : ty < (H + 511) / 512)
    (hx : x < ((ImgExtractor.new img_sizes imgs).extract H 512 tx ty).width)
    (hy : y < ((ImgExtractor.new img_sizes imgs).extract H 512 tx ty).height) :
    ((ImgExtractor.new img_sizes imgs).extract H 512 tx ty).pix x y =
      referenceCanvas H (img_sizes.zip imgs) (tx * 512 + x) (ty * 512 + y) := by
  obtain ⟨hdw, hdh⟩ :=
    ImgExtractor.extract_dims (ImgExtractor.new img_sizes imgs) H 512 tx ty
  rw [hdw] at hx
  rw [hdh] at hy
  simp only [ImgExtractor.new] at hx hy
  simp only [ImgExtractor.extract, ImgExtractor.new]
  refine Eq.trans
    (extractLoop_pix_eq H (tx * 512) _ (ty * 512) _ (img_sizes.zip imgs) 0 _ x y
      (Nat.zero_le _) (by omega) (by omega)
      (by rw [zip_map_width_sum _ _ hlen]; omega)) ?_
  rw [Nat.sub_zero]

/-- Sources for the concrete extractor witnesses. -/
def wSizes : List (Nat × Nat) := [(1, 1)]

/-- Decoded images for the concrete extractor witnesses. -/
def wImgs : List Img := [constImg 1 1 ⟨7, 8, 9⟩]

/-- Witness for C1 on one concrete 1-by-1 source. -/
theorem extract_matches_reference_witness :
    (wSizes ≠ [] ∧ wSizes.length = wImgs.length ∧ (∀ s ∈ wSizes, s.2 = 1) ∧
     0 < ((wSizes.map (fun s => s.1)).sum + 511) / 512 ∧ 0 < (1 + 511) / 512 ∧
     0 < ((ImgExtractor.new wSizes wImgs).extract 1 512 0 0).width ∧
     0 < ((ImgExtractor.new wSizes wImgs).extract 1 512 0 0).height) ∧
    ((ImgExtractor.new wSizes wImgs).extract 1 512 0 0).pix 0 0 =
      referenceCanvas 1 (wSizes.zip wImgs) (0 * 512 + 0) (0 * 512 + 0) :=
  ⟨⟨by decide, by decide, by decide, by decide, by decide, by decide, by decide⟩,
   extract_matches_reference wSizes wImgs 1 (by decide) (by decide) (by decide)
     0 0 0 0 (by decide) (by decide) (by decide) (by decide)⟩

/-- A concrete 300-by-200 source image for the C6 witness. -/
def img300 : Img := constImg 300 200 ⟨0, 0, 0⟩

/-- Claim C6: inside the canvas, the tile returned by
`ImgExtractor::extract` has dimensions
`(min 512 (full_width - tx*512), min 512 (full_height - ty*512))`, it is
smaller than 512 on an axis only for the last tile along that axis, and in
particular for source widths `[300, 300]` and height 200 tile `(0,0)` is
512 by 200 and tile `(1,0)` is 88 by 200. -/
theorem extract_tile_dims_spec :
    (∀ (img_sizes : List (Nat × Nat)) (imgs : List Img) (img_height tx ty : Nat),
      tx * 512 < (ImgExtractor.new img_sizes imgs).full_width →
      ty * 512 < (ImgExtractor.new img_sizes imgs).full_height →
      ((ImgExtractor.new img_sizes imgs).extract img_height 512 tx ty).width =
        min 512 ((ImgExtractor.new img_sizes imgs).full_width - tx * 512) ∧
      ((ImgExtractor.new img_sizes imgs).extract img_height 512 tx ty).height =
        min 512 ((ImgExtractor.new img_sizes imgs).full_height - ty * 512) ∧
      (((ImgExtractor.new img_sizes imgs).extract img_height 512 tx ty).width < 512 →
        tx = ((ImgExtractor.new img_sizes imgs).full_width + 511) / 512 - 1) ∧
      (((ImgExtractor.new img_sizes imgs).extract img_height 512 tx ty).height < 512 →
        ty = ((ImgExtractor.new img_sizes imgs).full_height + 511) / 512 - 1)) ∧
    ((ImgExtractor.new [(300, 200), (300, 200)] [img300, img300]).extract
        200 512 0 0).width = 512 ∧
    ((ImgExtractor.new [(300, 200), (300, 200)] [img300, img300]).extract
        200 512 0 0).height = 200 ∧
    ((ImgExtractor.new [(300, 200), (300, 200)] [img300, img300]).extract
        200 512 1 0).width = 88 ∧
    ((ImgExtractor.new [(300, 200), (300, 200)] [img300, img300]).extract
        200 512 1 0).height = 200 := by
  refine ⟨?_, by decide, by decide, by decide, by decide⟩
  intro img_sizes imgs img_height tx ty htx hty
  obtain ⟨hdw, hdh⟩ :=
    ImgExtractor.extract_dims (ImgExtractor.new img_sizes imgs) img_height 512 tx ty
  rw [hdw, hdh]
  refine ⟨by omega, by omega, ?_, ?_⟩ <;> intro hsmall <;> omega

/-- Witness for C6 at the spec's example: widths `[300, 300]`, height 200,
tile `(1, 0)`. -/
theorem extract_tile_dims_spec_witness :
    (1 * 512 < (ImgExtractor.new [(300, 200), (300, 200)] [img300, img300]).full_width ∧
     0 * 512 < (ImgExtractor.new [(300, 200), (300, 200)] [img300, img300]).full_height) ∧
    (((ImgExtractor.new [(300, 200), (300, 200)] [img300, img300]).extract
        200 512 1 0).width =
      min 512 ((ImgExtractor.new [(300, 200), (300, 200)] [img300, img300]).full_width -
        1 * 512) ∧
     ((ImgExtractor.new [(300, 200), (300, 200)] [img300, img300]).extract
        200 512 1 0).height =
      min 512 ((ImgExtractor.new [(300, 200), (300, 200)] [img300, img300]).full_height -
        0 * 512) ∧
     (((ImgExtractor.new [(300, 200), (300, 200)] [img300, img300]).extract
        200 512 1 0).width < 512 →
      1 = ((ImgExtractor.new [(300, 200), (300, 200)] [img300, img300]).full_width +
        511) / 512 - 1) ∧
     (((ImgExtractor.new [(300, 200), (300, 200)] [img300, img300]).extract
        200 512 1 0).height < 512 →
      0 = ((ImgExtractor.new [(300, 200), (300, 200)] [img300, img300]).full_height +
        511) / 512 - 1)) :=
  ⟨⟨by decide, by decide⟩,
   extract_tile_dims_spec.1 [(300, 200), (300, 200)] [img300, img300] 200 1 0
     (by decide) (by decide)⟩

/-! ## The sliding cache effect of `ImgExtractor::extract` (C4)

The same scanning loop, viewed through its effect on `img_cache`: a scanned
source with `left <= accum_left + w` is inserted (or kept), a scanned source
with `left > accum_left + w` is removed, and the loop stops once
`accum_left + w >= right`. -/

/-- Embeds the cache bookkeeping of the source-scanning loop in
`ImgExtractor::extract`. -/
def extractCacheLoop : List Nat → Nat → Nat → Nat → Nat → Finset Nat → Finset Nat
  | [], _, _, _, _, img_cache => img_cache
  | w :: rest, id, accum_left, left, right, img_cache =>
    let img_cache' :=
      if left ≤ accum_left + w then insert id img_cache else img_cache.erase id
    if right ≤ accum_left + w then img_cache'
    else extractCacheLoop rest (id + 1) (accum_left + w) left right img_cache'

/-- The cache contents after one `extract(tile_size, tx, _)` call, starting
from cache state `img_cache`. -/
def cacheAfterExtract (img_sizes : List (Nat × Nat)) (tile_size tx : Nat)
    (img_cache : Finset Nat) : Finset Nat :=
  let full_width := (img_sizes.map (fun s => s.1)).sum
  let left := tx * tile_size
  let right := min (left + tile_size) full_width
  extractCacheLoop (img_sizes.map (fun s => s.1)) 0 0 left right img_cache

/-- Canvas offset where source `j` of the width list starts: the sum of the
widths before it. -/
def startOffset (widths : List Nat) (j : Nat) : Nat := (widths.take j).sum

/-- Specification-side: the half-open horizontal extent
`[accum_left, accum_left + w)` meets the half-open tile span `[left, right)`. -/
def extentIntersects (accum_left w left right : Nat) : Prop :=
  left < accum_left + w ∧ accum_left < right


lemma startOffset_zero (l : List Nat) : startOffset l 0 = 0 := rfl

lemma startOffset_cons_succ (w : Nat) (rest : List Nat) (j : Nat) :
    startOffset (w :: rest) (j + 1) = w + startOffset rest j := by
  simp [startOffset, List.take_succ_cons]

lemma extractCacheLoop_mem :
    ∀ (widths : List Nat) (id0 accum_left left right : Nat) (img_cache : Finset Nat)
      (i : Nat), accum_left < right →
      (i ∈ extractCacheLoop widths id0 accum_left left right img_cache ↔
        (∃ j, j < widths.length ∧ i = id0 + j ∧
          accum_left + startOffset widths j < right ∧
          left ≤ accum_left + startOffset widths j + widths.getD j 0) ∨
        ((∀ j, j < widths.length → i = id0 + j →
            ¬ accum_left + startOffset widths j < right) ∧
          i ∈ img_cache)) := by
  intro widths
  induction widths with
  | nil =>
    intro id0 accum_left left right img_cache i hentry
    simp only [extractCacheLoop, List.length_nil]
    constructor
    · intro hmem
      exact Or.inr ⟨fun j hj => absurd hj (by omega), hmem⟩
    · rintro (⟨j, hj, _⟩ | ⟨_, hmem⟩)
      · omega
      · exact hmem
  | cons w rest ih =>
    intro id0 accum_left left right img_cache i hentry
    simp only [extractCacheLoop]
    by_cases hbreak : right ≤ accum_left + w
    · rw [if_pos hbreak]
      constructor
      · intro hmem
        by_cases hi : i = id0
        · subst hi
          by_cases hload : left ≤ accum_left + w
          · refine Or.inl ⟨0, by simp only [List.length_cons]; omega, by omega, ?_, ?_⟩
            · rw [startOffset_zero]; omega
            · rw [startOffset_zero, List.getD_cons_zero]; omega
          · rw [if_neg hload, Finset.mem_erase] at hmem
            exact absurd rfl hmem.1
        · refine Or.inr ⟨?_, ?_⟩
          · intro j hj hij
            cases j with
            | zero => omega
            | succ j' => rw [startOffset_cons_succ]; omega
          · by_cases hload : left ≤ accum_left + w
            · rw [if_pos hload, Finset.mem_insert] at hmem
              tauto
            · rw [if_neg hload, Finset.mem_erase] at hmem
              exact hmem.2
      · rintro (⟨j, hj, hij, hsc, hld⟩ | ⟨hnsc, hmem⟩)
        · cases j with
          | zero =>
            rw [startOffset_zero, List.getD_cons_zero] at hld
            rw [if_pos (by omega : left ≤ accum_left + w), Finset.mem_insert]
            exact Or.inl (by omega)
          | succ j' =>
            rw [startOffset_cons_succ] at hsc
            omega
        · have hi : i ≠ id0 := by
            intro hi
            exact hnsc 0 (by simp only [List.length_cons]; omega) (by omega)
              (by rw [startOffset_zero]; omega)
          by_cases hload : left ≤ accum_left + w
          · rw [if_pos hload, Finset.mem_insert]
            exact Or.inr hmem
          · rw [if_neg hload, Finset.mem_erase]
            exact ⟨hi, hmem⟩
    · rw [if_neg hbreak]
      rw [ih (id0 + 1) (accum_left + w) left right
        (if left ≤ accum_left + w then insert id0 img_cache else img_cache.erase id0)
        i (by omega)]
      constructor
      · rintro (⟨j, hj, hij, hsc, hld⟩ | ⟨hnsc, hmem⟩)
        · refine Or.inl ⟨j + 1, by simp only [List.length_cons]; omega, by omega, ?_, ?_⟩
          · rw [startOffset_cons_succ]; omega
          · rw [startOffset_cons_succ, List.getD_cons_succ]; omega
        · by_cases hi : i = id0
          · subst hi
            by_cases hload : left ≤ accum_left + w
            · refine Or.inl ⟨0, by simp only [List.length_cons]; omega, by omega, ?_, ?_⟩
              · rw [startOffset_zero]; omega
              · rw [startOffset_zero, List.getD_cons_zero]; omega
            · rw [if_neg hload, Finset.mem_erase] at hmem
              exact absurd rfl hmem.1
          · refine Or.inr ⟨?_, ?_⟩
            · intro j hj hij
              cases j with
              | zero => omega
              | succ j' =>
                rw [startOffset_cons_succ]
                intro hsc
                exact hnsc j' (by simp only [List.length_cons] at hj; omega)
                  (by omega) (by omega)
            · by_cases hload : left ≤ accum_left + w
              · rw [if_pos hload, Finset.mem_insert] at hmem
                tauto
              · rw [if_neg hload, Finset.mem_erase] at hmem
                exact hmem.2
      · rintro (⟨j, hj, hij, hsc, hld⟩ | ⟨hnsc, hmem⟩)
        · cases j with
          | zero =>
            rw [startOffset_zero] at hsc hld
            rw [List.getD_cons_zero] at hld
            refine Or.inr ⟨?_, ?_⟩
            · intro j' hj' hij'
              omega
            · rw [if_pos (by omega : left ≤ accum_left + w), Finset.mem_insert]
              exact Or.inl (by omega)
          | succ j' =>
            refine Or.inl ⟨j', by simp only [List.length_cons] at hj; omega, by omega, ?_, ?_⟩
            · rw [startOffset_cons_succ] at hsc; omega
            · rw [startOffset_cons_succ, List.getD_cons_succ] at hld; omega
        · refine Or.inr ⟨?_, ?_⟩
          · intro j hj hij hsc
            refine hnsc (j + 1) (by simp only [List.length_cons]; omega) (by omega) ?_
            rw [startOffset_cons_succ]
            omega
          · have hi : i ≠ id0 := by
              intro hi
              exact hnsc 0 (by simp only [List.length_cons]; omega) (by omega)
                (by rw [startOffset_zero]; omega)
            by_cases hload : left ≤ accum_left + w
            · rw [if_pos hload, Finset.mem_insert]
              exact Or.inr hmem
            · rw [if_neg hload, Finset.mem_erase]
              exact ⟨hi, hmem⟩

instance extentIntersects.instDecidable (accum_left w left right : Nat) :
    Decidable (extentIntersects accum_left w left right) :=
  inferInstanceAs (Decidable (_ ∧ _))

/-- Counterexample to claim C4 as stated: for probed sizes
`[(512, 100), (100, 100)]` and tile `tx = 1` (span `[512, 612)`),
`extract` loads source 0 into the cache — starting from an empty cache it
is resident afterwards — although its horizontal extent `[0, 512)` does
not intersect the tile span: the code's test `left <= accum_left + w`
also fires when the source's right edge merely abuts the tile's left
edge. -/
theorem cache_claim_counterexample :
    0 ∈ cacheAfterExtract [(512, 100), (100, 100)] 512 1 ∅ ∧
    ¬ extentIntersects 0 512 (1 * 512)
        (min (1 * 512 + 512)
          ((([(512, 100), (100, 100)] : List (Nat × Nat)).map (fun s => s.1)).sum)) := by
  exact ⟨by decide, by decide⟩

/-- Claim C4 (amended): during `extract` with tile span `[left, right)`,
`left = tx*tile_size`, `right = min (left+tile_size) full_width`, a source
`i` is resident in the cache afterwards iff either it was reached by the
scan (its start offset is `< right`) and `left <= start_offset + width` —
that is, its extent intersects the span *or merely abuts it from the left*
(`start_offset + width = left`) — or it was not reached and was already
resident before. -/
theorem cacheAfterExtract_mem (img_sizes : List (Nat × Nat)) (tile_size tx i : Nat)
    (img_cache : Finset Nat)
    (hr : 0 < min (tx * tile_size + tile_size) ((img_sizes.map (fun s => s.1)).sum)) :
    (i ∈ cacheAfterExtract img_sizes tile_size tx img_cache ↔
      (i < img_sizes.length ∧
        startOffset (img_sizes.map (fun s => s.1)) i <
          min (tx * tile_size + tile_size) ((img_sizes.map (fun s => s.1)).sum) ∧
        tx * tile_size ≤ startOffset (img_sizes.map (fun s => s.1)) i +
          (img_sizes.map (fun s => s.1)).getD i 0) ∨
      (¬ (i < img_sizes.length ∧
          startOffset (img_sizes.map (fun s => s.1)) i <
            min (tx * tile_size + tile_size) ((img_sizes.map (fun s => s.1)).sum)) ∧
        i ∈ img_cache)) := by
  simp only [cacheAfterExtract]
  rw [extractCacheLoop_mem (img_sizes.map (fun s => s.1)) 0 0 (tx * tile_size)
    (min (tx * tile_size + tile_size) ((img_sizes.map (fun s => s.1)).sum))
    img_cache i hr]
  have hlen : (img_sizes.map (fun s => s.1)).length = img_sizes.length :=
    List.length_map _ _
  constructor
  · rintro (⟨j, hj, hij, hsc, hld⟩ | ⟨hnsc, hmem⟩)
    · left
      have hji : j = i := by omega
      subst hji
      exact ⟨by omega, by omega, by omega⟩
    · right
      refine ⟨?_, hmem⟩
      rintro ⟨h1, h2⟩
      exact hnsc i (by omega) (by omega) (by omega)
  · rintro (⟨h1, h2, h3⟩ | ⟨hn, hmem⟩)
    · exact Or.inl ⟨i, by omega, by omega, by omega, by omega⟩
    · refine Or.inr ⟨?_, hmem⟩
      intro j hj hij hsc
      have hji : j = i := by omega
      subst hji
      exact hn ⟨by omega, by omega⟩

/-- Witness for the amended C4 at the counterexample's input. -/
theorem cacheAfterExtract_mem_witness :
    0 < min (1 * 512 + 512)
        ((([(512, 100), (100, 100)] : List (Nat × Nat)).map (fun s => s.1)).sum) ∧
    (0 ∈ cacheAfterExtract [(512, 100), (100, 100)] 512 1 ∅ ↔
      (0 < ([(512, 100), (100, 100)] : List (Nat × Nat)).length ∧
        startOffset (([(512, 100), (100, 100)] : List (Nat × Nat)).map (fun s => s.1)) 0 <
          min (1 * 512 + 512)
            ((([(512, 100), (100, 100)] : List (Nat × Nat)).map (fun s => s.1)).sum) ∧
        1 * 512 ≤
          startOffset (([(512, 100), (100, 100)] : List (Nat × Nat)).map (fun s => s.1)) 0 +
          (([(512, 100), (100, 100)] : List (Nat × Nat)).map (fun s => s.1)).getD 0 0) ∨
      (¬ (0 < ([(512, 100), (100, 100)] : List (Nat × Nat)).length ∧
          startOffset (([(512, 100), (100, 100)] : List (Nat × Nat)).map (fun s => s.1)) 0 <
            min (1 * 512 + 512)
              ((([(512, 100), (100, 100)] : List (Nat × Nat)).map (fun s => s.1)).sum)) ∧
        0 ∈ (∅ : Finset Nat))) :=
  ⟨by decide, cacheAfterExtract_mem [(512, 100), (100, 100)] 512 1 0 ∅ (by decide)⟩

/-! ## The orchestrator `run`: canvas dimensions, descriptor, CLI precondition -/

/-- Embeds the `width_sum` computation of `run`: the sum of probed widths. -/
def width_sum (img_sizes : List (Nat × Nat)) : Nat :=
  (img_sizes.map (fun s => s.1)).sum

/-- Embeds `img_sizes.iter().min_by_key(|(_, h)| h).unwrap().1` of `run`:
the minimum probed height; `none` models the `unwrap` panic on an empty
list. -/
def min_height (img_sizes : List (Nat × Nat)) : Option Nat :=
  match img_sizes with
  | [] => none
  | s :: rest => some (rest.foldl (fun acc t => min acc t.2) s.2)

/-- Embeds the size bookkeeping of `run` (lines 45-62): choose the common
height, overwrite every probed height with it, and sum the widths.
Mismatched heights only produce a warning; nothing fails. -/
def run_plan (img_sizes : List (Nat × Nat)) : Option (Nat × Nat × List (Nat × Nat)) :=
  match min_height img_sizes with
  | none => none
  | some height =>
    some (width_sum img_sizes, height, img_sizes.map (fun s => (s.1, height)))

lemma foldl_min_le_init : ∀ (l : List (Nat × Nat)) (a : Nat),
    l.foldl (fun acc t => min acc t.2) a ≤ a := by
  intro l
  induction l with
  | nil => intro a; exact le_refl a
  | cons hd tl ih =>
    intro a
    calc (hd :: tl).foldl (fun acc t => min acc t.2) a
        = tl.foldl (fun acc t => min acc t.2) (min a hd.2) := rfl
      _ ≤ min a hd.2 := ih _
      _ ≤ a := min_le_left _ _

lemma foldl_min_le_mem : ∀ (l : List (Nat × Nat)) (a : Nat) (s : Nat × Nat),
    s ∈ l → l.foldl (fun acc t => min acc t.2) a ≤ s.2 := by
  intro l
  induction l with
  | nil => intro a s hs; exact absurd hs (List.not_mem_nil s)
  | cons hd tl ih =>
    intro a s hs
    rcases List.mem_cons.mp hs with heq | hmem
    · subst heq
      calc (s :: tl).foldl (fun acc t => min acc t.2) a
          = tl.foldl (fun acc t => min acc t.2) (min a s.2) := rfl
        _ ≤ min a s.2 := foldl_min_le_init _ _
        _ ≤ s.2 := min_le_right _ _
    · exact ih (min a hd.2) s hmem

lemma foldl_min_attained : ∀ (l : List (Nat × Nat)) (a : Nat),
    l.foldl (fun acc t => min acc t.2) a = a ∨
      ∃ s ∈ l, l.foldl (fun acc t => min acc t.2) a = s.2 := by
  intro l
  induction l with
  | nil => intro a; exact Or.inl rfl
  | cons hd tl ih =>
    intro a
    have hstep : (hd :: tl).foldl (fun acc t => min acc t.2) a =
        tl.foldl (fun acc t => min acc t.2) (min a hd.2) := rfl
    rcases ih (min a hd.2) with heq | ⟨s, hs, heq⟩
    · rcases min_choice a hd.2 with hmin | hmin
      · exact Or.inl (by rw [hstep, heq, hmin])
      · exact Or.inr ⟨hd, List.mem_cons_self _ _, by rw [hstep, heq, hmin]⟩
    · exact Or.inr ⟨s, List.mem_cons_of_mem _ hs, by rw [hstep, heq]⟩

/-- Claim C7: for every non-empty input, `run` computes `full_width` as the
sum of the source widths and `full_height` as the minimum of the source
heights, replaces every probed height by the common one, and does not fail
on mismatched heights (`run_plan` is `some`); a source taller than the
common height is cropped top-aligned: `crop` keeps exactly the top
`full_height` rows with unchanged pixels. -/
theorem run_plan_spec (img_sizes : List (Nat × Nat)) (hne : img_sizes ≠ []) :
    ∃ height,
      run_plan img_sizes =
        some (width_sum img_sizes, height, img_sizes.map (fun s => (s.1, height))) ∧
      (∀ s ∈ img_sizes, height ≤ s.2) ∧ (∃ s ∈ img_sizes, s.2 = height) ∧
      (∀ img : Img, height ≤ img.height →
        (crop_imm img height).height = height ∧
        (crop_imm img height).width = img.width ∧
        ∀ x y : Nat, (crop_imm img height).pix x y = img.pix x y) := by
  match img_sizes, hne with
  | s :: rest, _ =>
    refine ⟨rest.foldl (fun acc (t : Nat × Nat) => min acc t.2) s.2, rfl, ?_, ?_, ?_⟩
    · intro t ht
      rcases List.mem_cons.mp ht with heq | hmem
      · subst heq; exact foldl_min_le_init _ _
      · exact foldl_min_le_mem _ _ _ hmem
    · rcases foldl_min_attained rest s.2 with heq | ⟨t, ht, heq⟩
      · exact ⟨s, List.mem_cons_self _ _, heq.symm⟩
      · exact ⟨t, List.mem_cons_of_mem _ ht, heq.symm⟩
    · intro img hle
      refine ⟨?_, rfl, fun x y => rfl⟩
      simpa [crop_imm] using min_eq_left hle

/-- Witness for C7 with a taller second source (heights 200 and 250). -/
theorem run_plan_spec_witness :
    ([((300 : Nat), (200 : Nat)), (300, 250)] ≠ []) ∧
    (∃ height,
      run_plan [(300, 200), (300, 250)] =
        some (width_sum [(300, 200), (300, 250)], height,
          ([(300, 200), (300, 250)] : List (Nat × Nat)).map (fun s => (s.1, height))) ∧
      (∀ s ∈ ([(300, 200), (300, 250)] : List (Nat × Nat)), height ≤ s.2) ∧
      (∃ s ∈ ([(300, 200), (300, 250)] : List (Nat × Nat)), s.2 = height) ∧
      (∀ img : Img, height ≤ img.height →
        (crop_imm img height).height = height ∧
        (crop_imm img height).width = img.width ∧
        ∀ x y : Nat, (crop_imm img height).pix x y = img.pix x y)) :=
  ⟨by decide, run_plan_spec [(300, 200), (300, 250)] (by decide)⟩

/-- Embeds the `format!` construction of the descriptor in `run`
(lines 106-109): one template with the tile size and the canvas dimensions
substituted. -/
def xml_content (tile_size full_width full_height : Nat) : String :=
  "<?xml version=\"1.0\" encoding=\"UTF-8\"?><Image xmlns=\"http://schemas.microsoft.com/deepzoom/2008\" TileSize=\"" ++
    toString tile_size ++ "\" Overlap=\"0\" Format=\"jpg\"><Size Width=\"" ++
    toString full_width ++ "\" Height=\"" ++ toString full_height ++ "\"/></Image>"

/-- The descriptor emitted by `run`: `xml_content` applied to the fixed
tile size 512, the width sum and the common height. -/
def run_descriptor (img_sizes : List (Nat × Nat)) : Option String :=
  (min_height img_sizes).map (fun height => xml_content 512 (width_sum img_sizes) height)

/-- Claim C8: the emitted descriptor is exactly the Deep Zoom XML string
with `TileSize` always 512, `Overlap` always 0, `Format` always jpg, and
`Width`/`Height` equal to the canvas dimensions; concretely, for sources
`[(300, 200), (300, 200)]` it is the literal descriptor with Width 600 and
Height 200. -/
theorem run_descriptor_spec :
    (∀ img_sizes : List (Nat × Nat), img_sizes ≠ [] →
      ∃ height, min_height img_sizes = some height ∧
        run_descriptor img_sizes = some
          ("<?xml version=\"1.0\" encoding=\"UTF-8\"?><Image xmlns=\"http://schemas.microsoft.com/deepzoom/2008\" TileSize=\"" ++
            "512" ++ "\" Overlap=\"0\" Format=\"jpg\"><Size Width=\"" ++
            toString (width_sum img_sizes) ++ "\" Height=\"" ++ toString height ++
            "\"/></Image>")) ∧
    run_descriptor [(300, 200), (300, 200)] = some
      "<?xml version=\"1.0\" encoding=\"UTF-8\"?><Image xmlns=\"http://schemas.microsoft.com/deepzoom/2008\" TileSize=\"512\" Overlap=\"0\" Format=\"jpg\"><Size Width=\"600\" Height=\"200\"/></Image>" := by
  constructor
  · intro img_sizes hne
    match img_sizes, hne with
    | s :: rest, _ =>
      refine ⟨_, rfl, ?_⟩
      simp only [run_descriptor, min_height, Option.map_some', xml_content]
      rw [show toString (512 : Nat) = "512" from by decide]
  · decide

/-- Witness for C8 on two concrete sources. -/
theorem run_descriptor_spec_witness :
    ([((300 : Nat), (200 : Nat)), (300, 250)] ≠ []) ∧
    (∃ height, min_height [(300, 200), (300, 250)] = some height ∧
      run_descriptor [(300, 200), (300, 250)] = some
        ("<?xml version=\"1.0\" encoding=\"UTF-8\"?><Image xmlns=\"http://schemas.microsoft.com/deepzoom/2008\" TileSize=\"" ++
          "512" ++ "\" Overlap=\"0\" Format=\"jpg\"><Size Width=\"" ++
          toString (width_sum [(300, 200), (300, 250)]) ++ "\" Height=\"" ++
          toString height ++ "\"/></Image>")) :=
  ⟨by decide, run_descriptor_spec.1 [(300, 200), (300, 250)] (by decide)⟩

/-- The externally observable I/O actions at the start of `run`
(lines 28-43): creating the output directory tree, then probing each
source's size. -/
inductive IOAction where
  | createDirAll : String → IOAction
  | probeSize : String → IOAction
deriving DecidableEq

/-- Models `run` up to and including the size probing (lines 28-43): the
emptiness assertion comes before every I/O action, so with no arguments the
run aborts (`false`) having performed no action; otherwise it creates the
output directories and probes every argument. -/
def run_io_start (args : List String) : List IOAction × Bool :=
  if args.isEmpty then ([], false)
  else (IOAction.createDirAll "tiles/tiles_files" :: args.map IOAction.probeSize, true)

/-- Claim C9: invoked with zero positional image arguments, `run` fails
before performing any I/O: the action trace is empty (no directory is
created, no source is probed or opened) and the run is aborted. -/
theorem run_no_io_on_empty : run_io_start [] = ([], false) := rfl
